import Mathlib

/-!
# Verification of the forust split-finding core (`src/splitter.rs`)

This file embeds the split-finding core of the forust gradient-boosted tree
trainer in Lean 4 and proves the specified properties of `evaluate_split`,
`best_feature_split` and `best_split`.

Numeric model: the Rust code computes over `f32`/`f64`.  We model a floating
value exactly as either NaN, one of the two infinities, or a finite rational.
Finite arithmetic is exact (rounding is not modelled — none of the verified
properties depend on rounding, only on control flow and on the IEEE special
values), while NaN/infinity propagation and comparison semantics follow IEEE
754 as used by Rust's `f32`/`f64` operators (modulo the sign of zero, which is
not distinguished here and which no verified property depends on).

Finite rationals are represented by an integer numerator and a positive
natural denominator, without normalization, so that every operation reduces
inside the kernel; comparisons are by cross-multiplication and are proved to
agree with the rational order via the interpretation `Q.val`.
-/

set_option autoImplicit false

namespace Forust

/-- An exact unnormalized rational: numerator, positive denominator. -/
structure Q where
  num : ℤ
  den : ℕ
  den_pos : 0 < den

instance : DecidableEq Q := fun x y =>
  if h1 : x.num = y.num then
    if h2 : x.den = y.den then isTrue (by cases x; cases y; simp_all)
    else isFalse (fun h => h2 (congrArg Q.den h))
  else isFalse (fun h => h1 (congrArg Q.num h))

instance : Repr Q := ⟨fun x _ => repr (x.num, x.den)⟩

namespace Q

/-- The rational value represented. -/
def val (x : Q) : ℚ := (x.num : ℚ) / (x.den : ℚ)

/-- Integer literal. -/
def ofInt (n : ℤ) : Q := ⟨n, 1, one_pos⟩

def add (x y : Q) : Q :=
  ⟨x.num * y.den + y.num * x.den, x.den * y.den, Nat.mul_pos x.den_pos y.den_pos⟩

def neg (x : Q) : Q := ⟨-x.num, x.den, x.den_pos⟩

def mul (x y : Q) : Q := ⟨x.num * y.num, x.den * y.den, Nat.mul_pos x.den_pos y.den_pos⟩

/-- Division; only ever invoked on a divisor with nonzero numerator
(division by a zero value is filtered out before this is reached). -/
def div (x y : Q) : Q :=
  if h : 0 < y.num then
    ⟨x.num * y.den, x.den * y.num.toNat, Nat.mul_pos x.den_pos (by omega)⟩
  else if h' : y.num < 0 then
    ⟨-(x.num * y.den), x.den * (-y.num).toNat, Nat.mul_pos x.den_pos (by omega)⟩
  else x

/-- Strict order by cross-multiplication. -/
def blt (x y : Q) : Bool := decide (x.num * (y.den : ℤ) < y.num * (x.den : ℤ))

/-- Order by cross-multiplication. -/
def ble (x y : Q) : Bool := decide (x.num * (y.den : ℤ) ≤ y.num * (x.den : ℤ))

/-- Value equality by cross-multiplication. -/
def beq (x y : Q) : Bool := decide (x.num * (y.den : ℤ) = y.num * (x.den : ℤ))

end Q

/-- An exactly-represented floating value: NaN, +∞, −∞ or a finite rational. -/
inductive F where
  | nan : F
  | inf : F
  | ninf : F
  | fin (q : Q) : F
deriving DecidableEq, Repr

namespace F

/-- The literal `0.0`. -/
def zero : F := fin (Q.ofInt 0)

/-- The literal `2.0`. -/
def two : F := fin (Q.ofInt 2)

/-- `Float::is_nan`. -/
def isNaN : F → Bool
  | nan => true
  | _ => false

/-- IEEE negation. -/
def fneg : F → F
  | nan => nan
  | inf => ninf
  | ninf => inf
  | fin q => fin q.neg

/-- IEEE addition (exact on finite values). -/
def fadd : F → F → F
  | nan, _ => nan
  | _, nan => nan
  | inf, ninf => nan
  | ninf, inf => nan
  | inf, _ => inf
  | _, inf => inf
  | ninf, _ => ninf
  | _, ninf => ninf
  | fin a, fin b => fin (a.add b)

/-- IEEE subtraction, `a - b = a + (-b)`. -/
def fsub (a b : F) : F := fadd a (fneg b)

/-- IEEE multiplication (exact on finite values); `0 · ±∞ = NaN`. -/
def fmul : F → F → F
  | nan, _ => nan
  | _, nan => nan
  | inf, inf => inf
  | inf, ninf => ninf
  | ninf, inf => ninf
  | ninf, ninf => inf
  | inf, fin q => if q.num = 0 then nan else if 0 < q.num then inf else ninf
  | fin q, inf => if q.num = 0 then nan else if 0 < q.num then inf else ninf
  | ninf, fin q => if q.num = 0 then nan else if 0 < q.num then ninf else inf
  | fin q, ninf => if q.num = 0 then nan else if 0 < q.num then ninf else inf
  | fin a, fin b => fin (a.mul b)

/-- IEEE division (exact on finite values); `0/0 = ±∞/±∞ = NaN`,
`x/0 = ±∞` for `x ≠ 0` (zero is treated as `+0`). -/
def fdiv : F → F → F
  | nan, _ => nan
  | _, nan => nan
  | inf, inf => nan
  | inf, ninf => nan
  | ninf, inf => nan
  | ninf, ninf => nan
  | inf, fin q => if 0 ≤ q.num then inf else ninf
  | ninf, fin q => if 0 ≤ q.num then ninf else inf
  | fin _, inf => zero
  | fin _, ninf => zero
  | fin a, fin b =>
    if b.num = 0 then (if a.num = 0 then nan else if 0 < a.num then inf else ninf)
    else fin (a.div b)

/-- IEEE strict less-than: any comparison with NaN is `false`. -/
def flt : F → F → Bool
  | nan, _ => false
  | _, nan => false
  | _, ninf => false
  | ninf, _ => true
  | inf, _ => false
  | _, inf => true
  | fin a, fin b => a.blt b

/-- IEEE less-or-equal: any comparison with NaN is `false`. -/
def fle : F → F → Bool
  | nan, _ => false
  | _, nan => false
  | ninf, _ => true
  | _, inf => true
  | inf, _ => false
  | _, ninf => false
  | fin a, fin b => a.ble b

/-- IEEE equality: NaN is not equal to anything, including itself. -/
def feq : F → F → Bool
  | nan, _ => false
  | _, nan => false
  | inf, inf => true
  | ninf, ninf => true
  | fin a, fin b => a.beq b
  | _, _ => false

end F

open F

/-! ## Data model

`Constraint`, the constraint map, histogram bins and the splittable-node view
live in `constraints.rs`, `histogram.rs` and `node.rs`, which are not part of
the sources at hand; they are modelled from the spec (§3), restricted to the
fields `splitter.rs` reads. -/

/-- Modelled from the spec: `Constraint` (`constraints.rs` is not in the
sources).  A per-feature monotonic-direction constraint; `Positive` is the
non-decreasing constraint and `Negative` the non-increasing one (the names
`Unconstrained`/`Negative`/`Positive` are the ones `splitter.rs` matches on). -/
inductive Constraint where
  | Unconstrained : Constraint
  | Positive : Constraint
  | Negative : Constraint
deriving DecidableEq, Repr

/-- Modelled from the spec: a constraint map sends a feature index to an
optional constraint (`ConstraintMap::get`). -/
def ConstraintMap : Type := Nat → Option Constraint

/-- Modelled from the spec: one histogram bin — aggregated gradient sum,
hessian sum and the bin's upper cut value (`histogram.rs` is not in the
sources). -/
structure Bin where
  grad_sum : F
  hess_sum : F
  cut_value : F
deriving DecidableEq, Repr

/-- The statistics describing one candidate child (`splitter.rs`). -/
structure NodeInfo where
  grad : F
  gain : F
  cover : F
  weight : F
  bounds : F × F
deriving DecidableEq, Repr

/-- Missing-value routing outcome (`splitter.rs`). -/
inductive MissingInfo where
  | Left : MissingInfo
  | Right : MissingInfo
  | Branch (node : NodeInfo) : MissingInfo
deriving DecidableEq, Repr

/-- The winning split for a node (`splitter.rs`).  The bin index is kept as a
natural number (the source narrows it to `u16`). -/
structure SplitInfo where
  split_gain : F
  split_feature : Nat
  split_value : F
  split_bin : Nat
  left_node : NodeInfo
  right_node : NodeInfo
  missing_node : MissingInfo
deriving DecidableEq, Repr

/-- Modelled from the spec: the per-node view consumed by the split search
(`node.rs` is not in the sources) — the node's histogram matrix (one bin list
per feature column), its gain as a leaf, total gradient/hessian sums and its
weight bound interval. -/
structure SplittableNode where
  histograms : List (List Bin)
  gain_value : F
  grad_sum : F
  hess_sum : F
  lower_bound : F
  upper_bound : F

/-- Column access, `histograms.get_col(feature)`. -/
def getCol (histograms : List (List Bin)) (feature : Nat) : List Bin :=
  histograms.getD feature []

/-- The splitter configuration (`MissingImputerSplitter` in `splitter.rs`). -/
structure MissingImputerSplitter where
  l2 : F
  gamma : F
  min_leaf_weight : F
  learning_rate : F
  allow_missing_splits : Bool
  constraints_map : ConstraintMap

/-! ## Gain/weight math (`utils.rs`)

`utils.rs` is not in the sources; these four functions are modelled from the
spec (§4.1). -/

/-- Modelled from the spec: `weight(l2, G, H) = -G / (H + l2)` — the
unconstrained Newton leaf weight (`utils.rs` is not in the sources). -/
def weight (l2 gradient_sum hessian_sum : F) : F :=
  fneg (fdiv gradient_sum (fadd hessian_sum l2))

/-- Modelled from the spec: `constrained_weight` computes `weight(l2, G, H)`
and clamps it into `[lower_bound, upper_bound]`; when the constraint is absent
or `Unconstrained` the clamping is a no-op (`utils.rs` is not in the
sources). -/
def constrained_weight (l2 gradient_sum hessian_sum lower_bound upper_bound : F)
    (constraint : Option Constraint) : F :=
  let w := weight l2 gradient_sum hessian_sum
  match constraint with
  | none | some .Unconstrained => w
  | some .Positive | some .Negative =>
    if flt w lower_bound then lower_bound
    else if flt upper_bound w then upper_bound
    else w

/-- Modelled from the spec:
`gain_given_weight(l2, G, H, w) = -(2·G·w + (H + l2)·w²) / 2` (`utils.rs` is
not in the sources). -/
def gain_given_weight (l2 gradient_sum hessian_sum w : F) : F :=
  fneg (fdiv (fadd (fmul (fmul two gradient_sum) w)
    (fmul (fadd hessian_sum l2) (fmul w w))) two)

/-- Modelled from the spec: `cull_gain` enforces monotonicity — a
`Positive` (non-decreasing) constraint requires `left_weight ≤ right_weight`
and a `Negative` (non-increasing) one requires `left_weight ≥ right_weight`;
it returns `0` if the required order is violated or if the gain is NaN, and
passes the gain through otherwise (`utils.rs` is not in the sources). -/
def cull_gain (gain left_weight right_weight : F) (constraint : Option Constraint) : F :=
  if isNaN gain then zero
  else match constraint with
  | none | some .Unconstrained => gain
  | some .Positive => if !(fle left_weight right_weight) then zero else gain
  | some .Negative => if !(fle right_weight left_weight) then zero else gain

/-! ## Split evaluator — `evaluate_split` (`splitter.rs`, lines 67–218) -/

/-- `MissingImputerSplitter::evaluate_split`.  A line-by-line translation of
the source: the empty-side rejection, the pre-routing `min_leaf_weight`
rejection, the missing-value routing decision (note the source's second,
repeated `cull_gain` of the missing-left gain, and the *unconstrained*
`weight` for the missing-right side), the post-routing `min_leaf_weight`
rejection, and the final `NodeInfo` pair with learning-rate-shrunk weights
and `(-∞, ∞)` bounds. -/
def evaluate_split (s : MissingImputerSplitter)
    (left_gradient left_hessian right_gradient right_hessian
      missing_gradient missing_hessian lower_bound upper_bound : F)
    (constraint : Option Constraint) : Option (NodeInfo × NodeInfo × MissingInfo) :=
  if ((feq left_gradient zero && feq left_hessian zero)
      || (feq right_gradient zero && feq right_hessian zero))
      && !s.allow_missing_splits then none
  else
    let left_weight := constrained_weight s.l2 left_gradient left_hessian
      lower_bound upper_bound constraint
    let right_weight := constrained_weight s.l2 right_gradient right_hessian
      lower_bound upper_bound constraint
    let left_gain := gain_given_weight s.l2 left_gradient left_hessian left_weight
    let right_gain := gain_given_weight s.l2 right_gradient right_hessian right_weight
    if !s.allow_missing_splits
        && (flt right_hessian s.min_leaf_weight || flt left_hessian s.min_leaf_weight) then
      none
    else
      let routed :=
        if !(feq missing_gradient zero) || !(feq missing_hessian zero) then
          let missing_left_weight := constrained_weight s.l2
            (fadd left_gradient missing_gradient) (fadd left_hessian missing_hessian)
            lower_bound upper_bound constraint
          let missing_left_gain := gain_given_weight s.l2
            (fadd left_gradient missing_gradient) (fadd left_hessian missing_hessian)
            missing_left_weight
          let missing_left_gain := cull_gain missing_left_gain missing_left_weight
            right_weight constraint
          let missing_right_weight := weight s.l2
            (fadd right_gradient missing_gradient) (fadd right_hessian missing_hessian)
          let missing_right_gain := gain_given_weight s.l2
            (fadd right_gradient missing_gradient) (fadd right_hessian missing_hessian)
            missing_right_weight
          let missing_left_gain := cull_gain missing_left_gain missing_left_weight
            right_weight constraint
          if flt (fsub missing_right_gain right_gain) (fsub missing_left_gain left_gain) then
            (fadd left_gradient missing_gradient, fadd left_hessian missing_hessian,
              right_gradient, right_hessian,
              missing_left_gain, missing_left_weight, right_gain, right_weight,
              MissingInfo.Left)
          else
            (left_gradient, left_hessian,
              fadd right_gradient missing_gradient, fadd right_hessian missing_hessian,
              left_gain, left_weight, missing_right_gain, missing_right_weight,
              MissingInfo.Right)
        else
          (left_gradient, left_hessian, right_gradient, right_hessian,
            left_gain, left_weight, right_gain, right_weight, MissingInfo.Right)
      match routed with
      | (lg, lh, rg, rh, lgain, lw, rgain, rw, minfo) =>
        if flt rh s.min_leaf_weight || flt lh s.min_leaf_weight then none
        else some
          (⟨lg, lgain, lh, fmul lw s.learning_rate, (F.ninf, F.inf)⟩,
           ⟨rg, rgain, rh, fmul rw s.learning_rate, (F.ninf, F.inf)⟩,
           minfo)

/-! ### Named views of the intermediate quantities of `evaluate_split`

Each definition repeats the expression bound to the like-named local variable
of the source, so that the theorems below can speak about them. -/

/-- The source's `left_weight`/`right_weight` for a side with sums `g`, `h`. -/
def esSideWeight (s : MissingImputerSplitter) (g h lb ub : F)
    (c : Option Constraint) : F :=
  constrained_weight s.l2 g h lb ub c

/-- The source's `left_gain`/`right_gain` for a side with sums `g`, `h`. -/
def esSideGain (s : MissingImputerSplitter) (g h lb ub : F)
    (c : Option Constraint) : F :=
  gain_given_weight s.l2 g h (esSideWeight s g h lb ub c)

/-- `missing_left_weight`: the constrained weight of `left + missing`. -/
def esMissingLeftWeight (s : MissingImputerSplitter) (lg lh mg mh lb ub : F)
    (c : Option Constraint) : F :=
  constrained_weight s.l2 (fadd lg mg) (fadd lh mh) lb ub c

/-- The raw (pre-cull) gain of `left + missing`. -/
def esMissingLeftGainRaw (s : MissingImputerSplitter) (lg lh mg mh lb ub : F)
    (c : Option Constraint) : F :=
  gain_given_weight s.l2 (fadd lg mg) (fadd lh mh)
    (esMissingLeftWeight s lg lh mg mh lb ub c)

/-- `missing_left_gain` as used by the routing decision: the raw gain passed
through `cull_gain` twice with identical arguments (the source repeats the
invocation). -/
def esMissingLeftGain (s : MissingImputerSplitter) (lg lh rg rh mg mh lb ub : F)
    (c : Option Constraint) : F :=
  cull_gain
    (cull_gain (esMissingLeftGainRaw s lg lh mg mh lb ub c)
      (esMissingLeftWeight s lg lh mg mh lb ub c)
      (esSideWeight s rg rh lb ub c) c)
    (esMissingLeftWeight s lg lh mg mh lb ub c)
    (esSideWeight s rg rh lb ub c) c

/-- `missing_right_weight`: the *unconstrained* weight of `right + missing`. -/
def esMissingRightWeight (s : MissingImputerSplitter) (rg rh mg mh : F) : F :=
  weight s.l2 (fadd rg mg) (fadd rh mh)

/-- `missing_right_gain`: the raw gain of `right + missing` at the
unconstrained weight — never passed through `cull_gain`. -/
def esMissingRightGain (s : MissingImputerSplitter) (rg rh mg mh : F) : F :=
  gain_given_weight s.l2 (fadd rg mg) (fadd rh mh)
    (esMissingRightWeight s rg rh mg mh)

/-- Whether the missing bin carries mass (`missing_gradient != 0.0 ||
missing_hessian != 0.0`). -/
def esMissingNonzero (mg mh : F) : Bool :=
  !(feq mg zero) || !(feq mh zero)

/-- The routing decision: missing goes left exactly when
`missing_right_gain - right_gain < missing_left_gain - left_gain`. -/
def esGoesLeft (s : MissingImputerSplitter) (lg lh rg rh mg mh lb ub : F)
    (c : Option Constraint) : Bool :=
  flt (fsub (esMissingRightGain s rg rh mg mh) (esSideGain s rg rh lb ub c))
    (fsub (esMissingLeftGain s lg lh rg rh mg mh lb ub c) (esSideGain s lg lh lb ub c))

/-- Missing mass is routed to the left side. -/
def esRouteLeft (s : MissingImputerSplitter) (lg lh rg rh mg mh lb ub : F)
    (c : Option Constraint) : Bool :=
  esMissingNonzero mg mh && esGoesLeft s lg lh rg rh mg mh lb ub c

/-- Missing mass is routed to the right side. -/
def esRouteRight (s : MissingImputerSplitter) (lg lh rg rh mg mh lb ub : F)
    (c : Option Constraint) : Bool :=
  esMissingNonzero mg mh && !(esGoesLeft s lg lh rg rh mg mh lb ub c)

/-- The left hessian sum after missing-value routing. -/
def esFinalLeftHessian (s : MissingImputerSplitter) (lg lh rg rh mg mh lb ub : F)
    (c : Option Constraint) : F :=
  if esRouteLeft s lg lh rg rh mg mh lb ub c then fadd lh mh else lh

/-- The right hessian sum after missing-value routing. -/
def esFinalRightHessian (s : MissingImputerSplitter) (lg lh rg rh mg mh lb ub : F)
    (c : Option Constraint) : F :=
  if esRouteRight s lg lh rg rh mg mh lb ub c then fadd rh mh else rh

/-- Rejection (a): an empty side while missing-only splits are disallowed. -/
def esRejectEmptySide (s : MissingImputerSplitter) (lg lh rg rh : F) : Bool :=
  ((feq lg zero && feq lh zero) || (feq rg zero && feq rh zero))
    && !s.allow_missing_splits

/-- Rejection (b): a pre-routing hessian sum below `min_leaf_weight` while
missing-only splits are disallowed. -/
def esRejectMinLeaf (s : MissingImputerSplitter) (lh rh : F) : Bool :=
  !s.allow_missing_splits
    && (flt rh s.min_leaf_weight || flt lh s.min_leaf_weight)

/-- Rejection (c): a post-routing hessian sum below `min_leaf_weight`. -/
def esRejectFinal (s : MissingImputerSplitter) (lg lh rg rh mg mh lb ub : F)
    (c : Option Constraint) : Bool :=
  flt (esFinalRightHessian s lg lh rg rh mg mh lb ub c) s.min_leaf_weight
    || flt (esFinalLeftHessian s lg lh rg rh mg mh lb ub c) s.min_leaf_weight

/-- The left gradient sum after missing-value routing. -/
def esFinalLeftGrad (s : MissingImputerSplitter) (lg lh rg rh mg mh lb ub : F)
    (c : Option Constraint) : F :=
  if esRouteLeft s lg lh rg rh mg mh lb ub c then fadd lg mg else lg

/-- The right gradient sum after missing-value routing. -/
def esFinalRightGrad (s : MissingImputerSplitter) (lg lh rg rh mg mh lb ub : F)
    (c : Option Constraint) : F :=
  if esRouteRight s lg lh rg rh mg mh lb ub c then fadd rg mg else rg

/-- The left gain after missing-value routing. -/
def esFinalLeftGain (s : MissingImputerSplitter) (lg lh rg rh mg mh lb ub : F)
    (c : Option Constraint) : F :=
  if esRouteLeft s lg lh rg rh mg mh lb ub c then
    esMissingLeftGain s lg lh rg rh mg mh lb ub c
  else esSideGain s lg lh lb ub c

/-- The right gain after missing-value routing. -/
def esFinalRightGain (s : MissingImputerSplitter) (lg lh rg rh mg mh lb ub : F)
    (c : Option Constraint) : F :=
  if esRouteRight s lg lh rg rh mg mh lb ub c then
    esMissingRightGain s rg rh mg mh
  else esSideGain s rg rh lb ub c

/-- The left weight after missing-value routing. -/
def esFinalLeftWeight (s : MissingImputerSplitter) (lg lh rg rh mg mh lb ub : F)
    (c : Option Constraint) : F :=
  if esRouteLeft s lg lh rg rh mg mh lb ub c then
    esMissingLeftWeight s lg lh mg mh lb ub c
  else esSideWeight s lg lh lb ub c

/-- The right weight after missing-value routing. -/
def esFinalRightWeight (s : MissingImputerSplitter) (lg lh rg rh mg mh lb ub : F)
    (c : Option Constraint) : F :=
  if esRouteRight s lg lh rg rh mg mh lb ub c then
    esMissingRightWeight s rg rh mg mh
  else esSideWeight s rg rh lb ub c

/-- The `MissingInfo` tag recorded by `evaluate_split`. -/
def esMissing (s : MissingImputerSplitter) (lg lh rg rh mg mh lb ub : F)
    (c : Option Constraint) : MissingInfo :=
  if esRouteLeft s lg lh rg rh mg mh lb ub c then MissingInfo.Left
  else MissingInfo.Right

/-- The left `NodeInfo` of a successful `evaluate_split`. -/
def esLeftNode (s : MissingImputerSplitter) (lg lh rg rh mg mh lb ub : F)
    (c : Option Constraint) : NodeInfo :=
  ⟨esFinalLeftGrad s lg lh rg rh mg mh lb ub c,
   esFinalLeftGain s lg lh rg rh mg mh lb ub c,
   esFinalLeftHessian s lg lh rg rh mg mh lb ub c,
   fmul (esFinalLeftWeight s lg lh rg rh mg mh lb ub c) s.learning_rate,
   (F.ninf, F.inf)⟩

/-- The right `NodeInfo` of a successful `evaluate_split`. -/
def esRightNode (s : MissingImputerSplitter) (lg lh rg rh mg mh lb ub : F)
    (c : Option Constraint) : NodeInfo :=
  ⟨esFinalRightGrad s lg lh rg rh mg mh lb ub c,
   esFinalRightGain s lg lh rg rh mg mh lb ub c,
   esFinalRightHessian s lg lh rg rh mg mh lb ub c,
   fmul (esFinalRightWeight s lg lh rg rh mg mh lb ub c) s.learning_rate,
   (F.ninf, F.inf)⟩

/-! ## Split search — `best_feature_split` / `best_split`
(`splitter.rs`, lines 243–367) -/

/-- The child weight bound intervals recorded with an accepted candidate
(`splitter.rs`, lines 335–343): `Unconstrained` (or no constraint) passes the
parent interval to both children; `Negative` gives the left child
`[mid, upper]` and the right child `[lower, mid]`; `Positive` gives the left
child `[lower, mid]` and the right child `[mid, upper]`. -/
def boundsFor (constraint : Option Constraint) (lower_bound upper_bound mid : F) :
    (F × F) × (F × F) :=
  match constraint with
  | none | some .Unconstrained =>
    ((lower_bound, upper_bound), (lower_bound, upper_bound))
  | some .Negative => ((mid, upper_bound), (lower_bound, mid))
  | some .Positive => ((lower_bound, mid), (mid, upper_bound))

/-- The mutable state of the scan over one feature's histogram:
`cuml_grad`, `cuml_hess`, `max_gain` and `split_info`. -/
structure ScanState where
  cuml_grad : F
  cuml_hess : F
  max_gain : Option F
  split_info : Option SplitInfo
deriving DecidableEq, Repr

/-- One iteration of the `best_feature_split` scan (`splitter.rs`, lines
292–365), for the bin at position `i` of `histogram[1..]`: evaluate the split
at this boundary, compute the gamma-penalised and monotonicity-culled
`split_gain`, skip non-positive candidates, record a candidate beating the
running maximum, and advance the cumulative sums. -/
def bfsStep (s : MissingImputerSplitter) (node : SplittableNode) (feature : Nat)
    (missing : Bin) (constraint : Option Constraint) (bin : Bin) (i : Nat)
    (st : ScanState) : ScanState :=
  let left_gradient := st.cuml_grad
  let left_hessian := st.cuml_hess
  let right_gradient := fsub (fsub node.grad_sum st.cuml_grad) missing.grad_sum
  let right_hessian := fsub (fsub node.hess_sum st.cuml_hess) missing.hess_sum
  let advanced_grad := fadd st.cuml_grad bin.grad_sum
  let advanced_hess := fadd st.cuml_hess bin.hess_sum
  match evaluate_split s left_gradient left_hessian right_gradient right_hessian
      missing.grad_sum missing.hess_sum node.lower_bound node.upper_bound constraint with
  | none => ⟨advanced_grad, advanced_hess, st.max_gain, st.split_info⟩
  | some (left_node_info, right_node_info, missing_info) =>
    let split_gain := fsub (fsub (fadd left_node_info.gain right_node_info.gain)
      node.gain_value) s.gamma
    let split_gain := cull_gain split_gain left_node_info.weight right_node_info.weight
      constraint
    if fle split_gain zero then
      ⟨advanced_grad, advanced_hess, st.max_gain, st.split_info⟩
    else
      let mid := fdiv (fadd left_node_info.weight right_node_info.weight) two
      let bounds := boundsFor constraint node.lower_bound node.upper_bound mid
      let left_node_info := { left_node_info with bounds := bounds.1 }
      let right_node_info := { right_node_info with bounds := bounds.2 }
      let split_gain := if isNaN split_gain then zero else split_gain
      let accept : Bool :=
        match st.max_gain with
        | none => true
        | some mg => flt mg split_gain
      if accept then
        ⟨advanced_grad, advanced_hess, some split_gain,
          some ⟨split_gain, feature, bin.cut_value, i + 1,
            left_node_info, right_node_info, missing_info⟩⟩
      else
        ⟨advanced_grad, advanced_hess, st.max_gain, st.split_info⟩

/-- The scan loop of `best_feature_split` over `histogram[1..]`. -/
def bfsGo (s : MissingImputerSplitter) (node : SplittableNode) (feature : Nat)
    (missing : Bin) (constraint : Option Constraint) :
    List Bin → Nat → ScanState → ScanState
  | [], _, st => st
  | bin :: rest, i, st =>
    bfsGo s node feature missing constraint rest (i + 1)
      (bfsStep s node feature missing constraint bin i st)

/-- `Splitter::best_feature_split` (`splitter.rs`, lines 276–367): isolates
the missing bin (`histogram[0]`), scans the remaining bins with zero initial
cumulative sums, and returns the recorded best candidate.  An empty column
cannot occur (the histogram contract guarantees at least two bins; the source
would panic indexing `histogram[0]`); it is mapped to `none`.  The source's
self-equality assertion on the histogram length is a tautology and is not
modelled. -/
def best_feature_split (s : MissingImputerSplitter) (node : SplittableNode)
    (feature : Nat) : Option SplitInfo :=
  match getCol node.histograms feature with
  | [] => none
  | missing :: rest =>
    (bfsGo s node feature missing (s.constraints_map feature) rest 0
      ⟨zero, zero, none, none⟩).split_info

/-- The loop of `best_split` over the feature indices: keep the feature whose
candidate's `split_gain` strictly exceeds the running best gain, which starts
at `0.0`. -/
def bsGo (s : MissingImputerSplitter) (node : SplittableNode) :
    List Nat → F → Option SplitInfo → Option SplitInfo
  | [], _, best_split_info => best_split_info
  | i :: rest, best_gain, best_split_info =>
    match best_feature_split s node i with
    | some info =>
      if flt best_gain info.split_gain then
        bsGo s node rest info.split_gain (some info)
      else
        bsGo s node rest best_gain best_split_info
    | none => bsGo s node rest best_gain best_split_info

/-- `Splitter::best_split` (`splitter.rs`, lines 243–260): iterate every
feature column in index order and keep the globally best candidate by strict
`>` comparison on `split_gain`, starting from a best gain of `0.0`. -/
def best_split (s : MissingImputerSplitter) (node : SplittableNode) :
    Option SplitInfo :=
  bsGo s node (List.range node.histograms.length) zero none

/-- The per-boundary culled split gain of the scan, as a list aligned with
`histogram[1..]`: `none` where `evaluate_split` rejects the boundary, and
`some` of the gamma-penalised, monotonicity-culled `split_gain` otherwise.
This mirrors the scan's own traversal (same cumulative sums). -/
def boundaryGains (s : MissingImputerSplitter) (node : SplittableNode)
    (missing : Bin) (constraint : Option Constraint) :
    List Bin → F → F → List (Option F)
  | [], _, _ => []
  | bin :: rest, cuml_grad, cuml_hess =>
    let g :=
      match evaluate_split s cuml_grad cuml_hess
          (fsub (fsub node.grad_sum cuml_grad) missing.grad_sum)
          (fsub (fsub node.hess_sum cuml_hess) missing.hess_sum)
          missing.grad_sum missing.hess_sum node.lower_bound node.upper_bound
          constraint with
      | none => none
      | some (left_node_info, right_node_info, _) =>
        some (cull_gain
          (fsub (fsub (fadd left_node_info.gain right_node_info.gain)
            node.gain_value) s.gamma)
          left_node_info.weight right_node_info.weight constraint)
    g :: boundaryGains s node missing constraint rest
      (fadd cuml_grad bin.grad_sum) (fadd cuml_hess bin.hess_sum)

/-! ## Concrete instances used by the closed-form checks -/

/-- Integer-valued floating literal. -/
def qi (n : ℤ) : F := F.fin (Q.ofInt n)

/-- Floating literal with explicit numerator and denominator. -/
def qn (n : ℤ) (d : ℕ) (h : 0 < d := by omega) : F := F.fin ⟨n, d, h⟩

/-- The empty constraint map. -/
def cmapNone : ConstraintMap := fun _ => none

/-- A constraint map putting a non-decreasing constraint on every feature. -/
def cmapPositive : ConstraintMap := fun _ => some Constraint.Positive

/-- An unconstrained splitter: `l2 = 0`, `gamma = 0`, `min_leaf_weight = 0`,
`learning_rate = 1`, `allow_missing_splits = true`. -/
def s0 : MissingImputerSplitter := ⟨qi 0, qi 0, qi 0, qi 1, true, cmapNone⟩

/-- A one-feature node: histogram bins `(missing 0/0)`, `(-2, 1, cut 1)`,
`(2, 1, cut 2)`; totals `(0, 2)`; leaf gain `0`; bounds `(-∞, ∞)`. -/
def n0 : SplittableNode :=
  ⟨[[⟨qi 0, qi 0, qi 0⟩, ⟨qi (-2), qi 1, qi 1⟩, ⟨qi 2, qi 1, qi 2⟩]],
    qi 0, qi 0, qi 2, F.ninf, F.inf⟩

/-- The split found on `n0`: gain `4` at cut `2`. -/
def info0 : SplitInfo :=
  ⟨qn 16 4, 0, qi 2, 2,
    ⟨qi (-2), qn 4 2, qi 1, qi 2, (F.ninf, F.inf)⟩,
    ⟨qi 2, qn 4 2, qi 1, qi (-2), (F.ninf, F.inf)⟩,
    MissingInfo.Right⟩

/-- Like `s0` but with a non-decreasing constraint on every feature. -/
def s5 : MissingImputerSplitter := ⟨qi 0, qi 0, qi 0, qi 1, true, cmapPositive⟩

/-- Like `n0` with the gradients reversed, so the child weights respect the
non-decreasing constraint. -/
def n5 : SplittableNode :=
  ⟨[[⟨qi 0, qi 0, qi 0⟩, ⟨qi 2, qi 1, qi 1⟩, ⟨qi (-2), qi 1, qi 2⟩]],
    qi 0, qi 0, qi 2, F.ninf, F.inf⟩

/-- The split found on `n5` under the non-decreasing constraint. -/
def info5 : SplitInfo :=
  ⟨qn 16 4, 0, qi 2, 2,
    ⟨qi 2, qn 4 2, qi 1, qi (-2), (F.ninf, qn 0 2)⟩,
    ⟨qi (-2), qn 4 2, qi 1, qi 2, (qn 0 2, F.inf)⟩,
    MissingInfo.Right⟩

/-- A splitter with `l2 = 1` and missing-only splits allowed. -/
def s8 : MissingImputerSplitter := ⟨qi 1, qi 0, qi 0, qi 1, true, cmapNone⟩

/-- A one-feature node whose entire gradient/hessian mass `(-4, 2)` sits in
the missing bin; the single real bin is empty; the node's leaf gain is `2`,
below the unconstrained leaf gain `8/3` of its totals. -/
def n8 : SplittableNode :=
  ⟨[[⟨qi (-4), qi 2, qi 0⟩, ⟨qi 0, qi 0, qi 1⟩]],
    qi 2, qi (-4), qi 2, F.ninf, F.inf⟩

/-- The split `best_feature_split` finds on `n8` (gain `2/3 = 72/108`),
routing all missing mass right. -/
def info8 : SplitInfo :=
  ⟨qn 72 108, 0, qi 1, 1,
    ⟨qi 0, qn 0 2, qi 0, qi 0, (F.ninf, F.inf)⟩,
    ⟨qi (-4), qn 144 54, qi 2, qn 4 3, (F.ninf, F.inf)⟩,
    MissingInfo.Right⟩

/-- A splitter with `allow_missing_splits = false`. -/
def sE : MissingImputerSplitter := ⟨qi 0, qi 0, qi 0, qi 1, false, cmapNone⟩

/-- A one-feature node with all mass `(1, 1)` in the missing bin. -/
def nE : SplittableNode :=
  ⟨[[⟨qi 1, qi 1, qi 0⟩, ⟨qi 0, qi 0, qi 1⟩]], qi 0, qi 1, qi 1, F.ninf, F.inf⟩

/-- A one-feature node on which the single split boundary is numerically
degenerate (empty left side under `l2 = 0`), so its culled boundary gain is
`0` and no split is returned. -/
def n6 : SplittableNode :=
  ⟨[[⟨qi 0, qi 0, qi 0⟩, ⟨qi 0, qi 1, qi 1⟩]], qi 0, qi 0, qi 1, F.ninf, F.inf⟩

/-! ## Lemmas on the numeric model -/

theorem Q.den_pos_q (x : Q) : (0 : ℚ) < (x.den : ℚ) := by
  exact_mod_cast x.den_pos

theorem Q.blt_iff {x y : Q} : x.blt y = true ↔ x.val < y.val := by
  rw [Q.blt, decide_eq_true_eq, Q.val, Q.val,
    div_lt_div_iff (Q.den_pos_q x) (Q.den_pos_q y)]
  constructor <;> intro h <;> exact_mod_cast h

theorem Q.ble_iff {x y : Q} : x.ble y = true ↔ x.val ≤ y.val := by
  rw [Q.ble, decide_eq_true_eq, Q.val, Q.val,
    div_le_div_iff (Q.den_pos_q x) (Q.den_pos_q y)]
  constructor <;> intro h <;> exact_mod_cast h

theorem Q.beq_iff {x y : Q} : x.beq y = true ↔ x.val = y.val := by
  rw [Q.beq, decide_eq_true_eq, Q.val, Q.val,
    div_eq_div_iff (ne_of_gt (Q.den_pos_q x)) (ne_of_gt (Q.den_pos_q y))]
  constructor <;> intro h <;> exact_mod_cast h

theorem Q.blt_eq_false_iff {x y : Q} : x.blt y = false ↔ ¬ x.val < y.val := by
  rw [← Q.blt_iff]; cases x.blt y <;> simp

theorem Q.ble_eq_false_iff {x y : Q} : x.ble y = false ↔ ¬ x.val ≤ y.val := by
  rw [← Q.ble_iff]; cases x.ble y <;> simp

theorem Q.ofInt_val (n : ℤ) : (Q.ofInt n).val = (n : ℚ) := by
  simp [Q.ofInt, Q.val]

theorem F.flt_irrefl (a : F) : flt a a = false := by
  cases a <;> simp [flt, Q.blt_eq_false_iff]

theorem F.flt_asymm {a b : F} (h : flt a b = true) : flt b a = false := by
  cases a <;> cases b <;>
    simp_all [flt, Q.blt_iff, Q.blt_eq_false_iff] <;> linarith

theorem F.flt_not_nan {a b : F} (h : flt a b = true) :
    isNaN a = false ∧ isNaN b = false := by
  cases a <;> cases b <;> simp_all [flt, isNaN]

theorem F.fle_not_nan {a b : F} (h : fle a b = true) :
    isNaN a = false ∧ isNaN b = false := by
  cases a <;> cases b <;> simp_all [fle, isNaN]

theorem F.fle_of_not_flt {a b : F} (ha : isNaN a = false) (hb : isNaN b = false)
    (h : flt a b = false) : fle b a = true := by
  cases a <;> cases b <;>
    simp_all [flt, fle, isNaN, Q.blt_eq_false_iff, Q.ble_iff] <;> linarith

theorem F.fle_flt_trans {a b c : F} (h1 : fle a b = true) (h2 : flt b c = true) :
    flt a c = true := by
  cases a <;> cases b <;> cases c <;>
    simp_all [flt, fle, Q.blt_iff, Q.ble_iff] <;> linarith

theorem F.flt_fle_trans {a b c : F} (h1 : flt a b = true) (h2 : fle b c = true) :
    flt a c = true := by
  cases a <;> cases b <;> cases c <;>
    simp_all [flt, fle, Q.blt_iff, Q.ble_iff] <;> linarith

theorem F.flt_zero_of_not_fle_zero {a : F} (ha : isNaN a = false)
    (h : fle a zero = false) : flt zero a = true := by
  cases a <;>
    simp_all [flt, fle, zero, isNaN, Q.blt_iff, Q.ble_eq_false_iff, Q.ofInt_val] <;>
    linarith

theorem F.fle_zero_of_not_flt_zero {a : F} (ha : isNaN a = false)
    (h : flt zero a = false) : fle a zero = true := by
  cases a <;>
    simp_all [flt, fle, zero, isNaN, Q.blt_eq_false_iff, Q.ble_iff, Q.ofInt_val] <;>
    linarith

theorem F.feq_flt_left {a b : F} (h : feq a b = true) : flt a b = false := by
  cases a <;> cases b <;>
    simp_all [flt, feq, Q.beq_iff, Q.blt_eq_false_iff] <;> linarith

theorem F.feq_flt_right {a b : F} (h : feq a b = true) : flt b a = false := by
  cases a <;> cases b <;>
    simp_all [flt, feq, Q.beq_iff, Q.blt_eq_false_iff] <;> linarith

/-! ## Lemmas on `cull_gain` -/

/-- `cull_gain` never returns NaN: a NaN gain is replaced by `0`, and
otherwise the result is either `0` or the (non-NaN) input gain. -/
theorem cull_gain_not_nan (g lw rw : F) (c : Option Constraint) :
    isNaN (cull_gain g lw rw c) = false := by
  unfold cull_gain
  rcases hg : isNaN g with _ | _
  · cases c with
    | none => simpa [hg] using hg
    | some cc => cases cc <;> simp [hg] <;> split <;> simp_all [zero, isNaN]
  · simp [hg, zero, isNaN]

/-- A NaN gain is culled to `0` regardless of the constraint. -/
theorem cull_gain_nan (g lw rw : F) (c : Option Constraint)
    (hg : isNaN g = true) : cull_gain g lw rw c = zero := by
  unfold cull_gain
  simp [hg]

/-- Under a `Positive` (non-decreasing) constraint, a gain that survives
`cull_gain` with a nonzero value has `left_weight ≤ right_weight`. -/
theorem cull_gain_positive_order {g lw rw : F}
    (h : fle (cull_gain g lw rw (some .Positive)) zero = false) :
    fle lw rw = true := by
  rcases hle : fle lw rw with _ | _
  · exfalso
    unfold cull_gain at h
    simp [hle] at h
    exact absurd h (by decide)
  · rfl

/-- Under a `Negative` (non-increasing) constraint, a gain that survives
`cull_gain` with a nonzero value has `right_weight ≤ left_weight`. -/
theorem cull_gain_negative_order {g lw rw : F}
    (h : fle (cull_gain g lw rw (some .Negative)) zero = false) :
    fle rw lw = true := by
  rcases hle : fle rw lw with _ | _
  · exfalso
    unfold cull_gain at h
    simp [hle] at h
    exact absurd h (by decide)
  · rfl

/-! ## Characterization of `evaluate_split` -/

/-- Characterization of `evaluate_split` in terms of the named views: the
three sequential rejections, and on success the routed `NodeInfo` pair and
tag. -/
theorem evaluate_split_eq (s : MissingImputerSplitter)
    (lg lh rg rh mg mh lb ub : F) (c : Option Constraint) :
    evaluate_split s lg lh rg rh mg mh lb ub c =
      if esRejectEmptySide s lg lh rg rh then none
      else if esRejectMinLeaf s lh rh then none
      else if esRejectFinal s lg lh rg rh mg mh lb ub c then none
      else some (esLeftNode s lg lh rg rh mg mh lb ub c,
        esRightNode s lg lh rg rh mg mh lb ub c,
        esMissing s lg lh rg rh mg mh lb ub c) := by
  unfold evaluate_split esRejectEmptySide esRejectMinLeaf esRejectFinal
    esLeftNode esRightNode esMissing
    esFinalLeftGrad esFinalRightGrad esFinalLeftGain esFinalRightGain
    esFinalLeftWeight esFinalRightWeight esFinalLeftHessian esFinalRightHessian
    esRouteLeft esRouteRight esGoesLeft esMissingNonzero
    esMissingLeftGain esMissingLeftGainRaw esMissingLeftWeight
    esMissingRightGain esMissingRightWeight esSideGain esSideWeight
  rcases h1 : ((feq lg F.zero && feq lh F.zero) || (feq rg F.zero && feq rh F.zero))
      && !s.allow_missing_splits with _ | _
  · rcases h2 : !s.allow_missing_splits
        && (flt rh s.min_leaf_weight || flt lh s.min_leaf_weight) with _ | _
    · rcases h3 : !(feq mg F.zero) || !(feq mh F.zero) with _ | _
      · simp only [h1, h2, h3, Bool.false_eq_true, if_false, Bool.false_and, Bool.true_and]
      · rcases h4 : flt
            (fsub (gain_given_weight s.l2 (fadd rg mg) (fadd rh mh)
              (weight s.l2 (fadd rg mg) (fadd rh mh)))
              (gain_given_weight s.l2 rg rh
                (constrained_weight s.l2 rg rh lb ub c)))
            (fsub (cull_gain (cull_gain
                (gain_given_weight s.l2 (fadd lg mg) (fadd lh mh)
                  (constrained_weight s.l2 (fadd lg mg) (fadd lh mh) lb ub c))
                (constrained_weight s.l2 (fadd lg mg) (fadd lh mh) lb ub c)
                (constrained_weight s.l2 rg rh lb ub c) c)
              (constrained_weight s.l2 (fadd lg mg) (fadd lh mh) lb ub c)
              (constrained_weight s.l2 rg rh lb ub c) c)
              (gain_given_weight s.l2 lg lh
                (constrained_weight s.l2 lg lh lb ub c))) with _ | _
        · simp [h1, h2, h3, h4]
        · simp [h1, h2, h3, h4]
    · simp only [h1, h2, Bool.false_eq_true, if_false, if_true]
  · simp only [h1, if_true]

/-- The tag of a successful `evaluate_split` is `Left` or `Right`; the
`Branch` variant is never constructed. -/
theorem evaluate_split_tag (s : MissingImputerSplitter)
    (lg lh rg rh mg mh lb ub : F) (c : Option Constraint)
    (l r : NodeInfo) (mi : MissingInfo)
    (h : evaluate_split s lg lh rg rh mg mh lb ub c = some (l, r, mi)) :
    mi = MissingInfo.Left ∨ mi = MissingInfo.Right := by
  rw [evaluate_split_eq] at h
  split_ifs at h
  all_goals try exact Option.noConfusion h
  simp only [Option.some.injEq, Prod.mk.injEq] at h
  obtain ⟨-, -, h3⟩ := h
  rw [← h3]
  unfold esMissing
  split
  · exact Or.inl rfl
  · exact Or.inr rfl

/-! ## The scan invariant of `best_feature_split` -/

/-- What one scan step does to the recorded candidate: either `split_info` is
left unchanged, or it becomes a candidate assembled from a successful
`evaluate_split` at the current boundary whose gamma-penalised, culled
`split_gain` is positive. -/
theorem bfsStep_split_info (s : MissingImputerSplitter) (node : SplittableNode)
    (feature : Nat) (missing : Bin) (constraint : Option Constraint)
    (bin : Bin) (i : Nat) (st : ScanState) :
    (bfsStep s node feature missing constraint bin i st).split_info = st.split_info ∨
    ∃ lni rni minfo,
      evaluate_split s st.cuml_grad st.cuml_hess
        (fsub (fsub node.grad_sum st.cuml_grad) missing.grad_sum)
        (fsub (fsub node.hess_sum st.cuml_hess) missing.hess_sum)
        missing.grad_sum missing.hess_sum node.lower_bound node.upper_bound
        constraint = some (lni, rni, minfo) ∧
      fle (cull_gain (fsub (fsub (fadd lni.gain rni.gain) node.gain_value) s.gamma)
        lni.weight rni.weight constraint) zero = false ∧
      (bfsStep s node feature missing constraint bin i st).split_info = some
        ⟨cull_gain (fsub (fsub (fadd lni.gain rni.gain) node.gain_value) s.gamma)
            lni.weight rni.weight constraint,
          feature, bin.cut_value, i + 1,
          { lni with bounds := (boundsFor constraint node.lower_bound node.upper_bound
              (fdiv (fadd lni.weight rni.weight) two)).1 },
          { rni with bounds := (boundsFor constraint node.lower_bound node.upper_bound
              (fdiv (fadd lni.weight rni.weight) two)).2 },
          minfo⟩ := by
  unfold bfsStep
  dsimp only
  rcases hev : evaluate_split s st.cuml_grad st.cuml_hess
      (fsub (fsub node.grad_sum st.cuml_grad) missing.grad_sum)
      (fsub (fsub node.hess_sum st.cuml_hess) missing.hess_sum)
      missing.grad_sum missing.hess_sum node.lower_bound node.upper_bound
      constraint with _ | ⟨⟨lni, rni, minfo⟩⟩
  · left; rfl
  · rcases hle : fle (cull_gain
        (fsub (fsub (fadd lni.gain rni.gain) node.gain_value) s.gamma)
        lni.weight rni.weight constraint) zero with _ | _
    · simp only [hle, Bool.false_eq_true, if_false, cull_gain_not_nan]
      rcases hacc : (match st.max_gain with
        | none => true
        | some mg => flt mg (cull_gain
            (fsub (fsub (fadd lni.gain rni.gain) node.gain_value) s.gamma)
            lni.weight rni.weight constraint)) with _ | _
      · simp only [hacc, Bool.false_eq_true, if_false]
        left; trivial
      · simp only [hacc, if_true]
        right
        exact ⟨lni, rni, minfo, rfl, hle, rfl⟩
    · simp only [hle, if_true]
      left; trivial

/-- The generic scan invariant: a predicate that holds of every candidate the
scan can record, and of the incoming `split_info`, holds of the final
`split_info`. -/
theorem bfsGo_split_info_inv (s : MissingImputerSplitter) (node : SplittableNode)
    (feature : Nat) (missing : Bin) (constraint : Option Constraint)
    (P : SplitInfo → Prop)
    (hstep : ∀ (cg ch : F) (bin : Bin) (i : Nat) (lni rni : NodeInfo)
      (minfo : MissingInfo),
      evaluate_split s cg ch (fsub (fsub node.grad_sum cg) missing.grad_sum)
        (fsub (fsub node.hess_sum ch) missing.hess_sum)
        missing.grad_sum missing.hess_sum node.lower_bound node.upper_bound
        constraint = some (lni, rni, minfo) →
      fle (cull_gain (fsub (fsub (fadd lni.gain rni.gain) node.gain_value) s.gamma)
        lni.weight rni.weight constraint) zero = false →
      P ⟨cull_gain (fsub (fsub (fadd lni.gain rni.gain) node.gain_value) s.gamma)
          lni.weight rni.weight constraint,
        feature, bin.cut_value, i + 1,
        { lni with bounds := (boundsFor constraint node.lower_bound node.upper_bound
            (fdiv (fadd lni.weight rni.weight) two)).1 },
        { rni with bounds := (boundsFor constraint node.lower_bound node.upper_bound
            (fdiv (fadd lni.weight rni.weight) two)).2 },
        minfo⟩) :
    ∀ (L : List Bin) (i : Nat) (st : ScanState),
      (∀ a, st.split_info = some a → P a) →
      ∀ a, (bfsGo s node feature missing constraint L i st).split_info = some a →
        P a := by
  intro L
  induction L with
  | nil => intro i st hst a ha; exact hst a ha
  | cons bin rest ih =>
    intro i st hst a ha
    refine ih (i + 1) _ ?_ a ha
    intro b hb
    rcases bfsStep_split_info s node feature missing constraint bin i st with
      h | ⟨lni, rni, minfo, hev, hpos, hrec⟩
    · rw [h] at hb; exact hst b hb
    · rw [hrec] at hb
      cases Option.some.inj hb
      exact hstep st.cuml_grad st.cuml_hess bin i lni rni minfo hev hpos

/-- The recorded-candidate invariant, at the `best_feature_split` level. -/
theorem best_feature_split_inv (s : MissingImputerSplitter) (node : SplittableNode)
    (feature : Nat) (P : SplitInfo → Prop)
    (hstep : ∀ (missing : Bin) (cg ch : F) (bin : Bin) (i : Nat)
      (lni rni : NodeInfo) (minfo : MissingInfo),
      evaluate_split s cg ch (fsub (fsub node.grad_sum cg) missing.grad_sum)
        (fsub (fsub node.hess_sum ch) missing.hess_sum)
        missing.grad_sum missing.hess_sum node.lower_bound node.upper_bound
        (s.constraints_map feature) = some (lni, rni, minfo) →
      fle (cull_gain (fsub (fsub (fadd lni.gain rni.gain) node.gain_value) s.gamma)
        lni.weight rni.weight (s.constraints_map feature)) zero = false →
      P ⟨cull_gain (fsub (fsub (fadd lni.gain rni.gain) node.gain_value) s.gamma)
          lni.weight rni.weight (s.constraints_map feature),
        feature, bin.cut_value, i + 1,
        { lni with bounds := (boundsFor (s.constraints_map feature)
            node.lower_bound node.upper_bound
            (fdiv (fadd lni.weight rni.weight) two)).1 },
        { rni with bounds := (boundsFor (s.constraints_map feature)
            node.lower_bound node.upper_bound
            (fdiv (fadd lni.weight rni.weight) two)).2 },
        minfo⟩) :
    ∀ info, best_feature_split s node feature = some info → P info := by
  intro info h
  unfold best_feature_split at h
  rcases hcol : getCol node.histograms feature with _ | ⟨missing, rest⟩ <;>
    rw [hcol] at h
  · exact Option.noConfusion h
  · exact bfsGo_split_info_inv s node feature missing (s.constraints_map feature) P
      (fun cg ch bin i lni rni minfo => hstep missing cg ch bin i lni rni minfo)
      rest 0 ⟨zero, zero, none, none⟩ (fun a ha => Option.noConfusion ha) info h

/-- Every candidate returned by `best_feature_split` carries a strictly
positive `split_gain`. -/
theorem bfs_some_positive (s : MissingImputerSplitter) (node : SplittableNode)
    (feature : Nat) (info : SplitInfo)
    (h : best_feature_split s node feature = some info) :
    flt zero info.split_gain = true := by
  refine best_feature_split_inv s node feature
    (fun a => flt zero a.split_gain = true) ?_ info h
  intro missing cg ch bin i lni rni minfo hev hpos
  exact F.flt_zero_of_not_fle_zero (cull_gain_not_nan _ _ _ _) hpos

/-- Every candidate returned by `best_feature_split` carries a `Left` or
`Right` missing tag. -/
theorem bfs_missing_tag (s : MissingImputerSplitter) (node : SplittableNode)
    (feature : Nat) (info : SplitInfo)
    (h : best_feature_split s node feature = some info) :
    info.missing_node = MissingInfo.Left ∨ info.missing_node = MissingInfo.Right := by
  refine best_feature_split_inv s node feature
    (fun a => a.missing_node = MissingInfo.Left ∨ a.missing_node = MissingInfo.Right)
    ?_ info h
  intro missing cg ch bin i lni rni minfo hev hpos
  exact evaluate_split_tag s _ _ _ _ _ _ _ _ _ lni rni minfo hev

/-! ## The selection invariant of `best_split` -/

/-- The full specification of the `best_split` selection loop over the
feature index range `[next, next + remaining)`, given a consistent incoming
state: if it returns `none` every feature in the processed range returned
`none`; if it returns a candidate, the candidate came from some feature, has
positive gain, strictly beats every candidate of an earlier feature, and is
beaten by no candidate at all. -/
theorem bsGo_range_spec (s : MissingImputerSplitter) (node : SplittableNode) :
    ∀ (remaining next : Nat) (g : F) (acc : Option SplitInfo),
      isNaN g = false →
      (acc = none → g = zero ∧ ∀ j, j < next → best_feature_split s node j = none) →
      (∀ a, acc = some a → a.split_gain = g ∧ flt zero g = true ∧
        (∃ i, i < next ∧ best_feature_split s node i = some a ∧
          ∀ j, j < i → ∀ b, best_feature_split s node j = some b →
            flt b.split_gain g = true) ∧
        (∀ j, j < next → ∀ b, best_feature_split s node j = some b →
          flt g b.split_gain = false)) →
      (bsGo s node (List.range' next remaining) g acc = none →
        ∀ j, j < next + remaining → best_feature_split s node j = none) ∧
      (∀ info, bsGo s node (List.range' next remaining) g acc = some info →
        flt zero info.split_gain = true ∧
        (∃ i, i < next + remaining ∧ best_feature_split s node i = some info ∧
          ∀ j, j < i → ∀ b, best_feature_split s node j = some b →
            flt b.split_gain info.split_gain = true) ∧
        (∀ j, j < next + remaining → ∀ b, best_feature_split s node j = some b →
          flt info.split_gain b.split_gain = false)) := by
  intro remaining
  induction remaining with
  | zero =>
    intro next g acc hg hnone hsome
    constructor
    · intro hres j hj
      simp only [List.range', bsGo] at hres
      exact (hnone hres).2 j (by omega)
    · intro info hres
      simp only [List.range', bsGo] at hres
      obtain ⟨h1, h2, ⟨i, hi, hbfs, hearlier⟩, hnobeat⟩ := hsome info hres
      refine ⟨h1 ▸ h2, ⟨i, by omega, hbfs, ?_⟩, ?_⟩
      · intro j hj b hb
        exact h1 ▸ hearlier j hj b hb
      · intro j hj b hb
        exact h1 ▸ hnobeat j (by omega) b hb
  | succ r ih =>
    intro next g acc hg hnone hsome
    have hcons : List.range' next (r + 1) = next :: List.range' (next + 1) r := rfl
    rw [hcons]
    rcases hbfs : best_feature_split s node next with _ | ⟨info'⟩
    · -- this feature produced no candidate: state is passed through
      have IH := ih (next + 1) g acc hg
        (fun h0 => ⟨(hnone h0).1, fun j hj => by
          rcases Nat.lt_or_ge j next with hlt | hge
          · exact (hnone h0).2 j hlt
          · have : j = next := by omega
            exact this ▸ hbfs⟩)
        (fun a ha => by
          obtain ⟨h1, h2, ⟨i, hi, hb, he⟩, hnb⟩ := hsome a ha
          refine ⟨h1, h2, ⟨i, by omega, hb, he⟩, ?_⟩
          intro j hj b hbj
          rcases Nat.lt_or_ge j next with hlt | hge
          · exact hnb j hlt b hbj
          · have : j = next := by omega
            rw [this, hbfs] at hbj
            exact Option.noConfusion hbj)
      constructor
      · intro hres j hj
        have : bsGo s node (next :: List.range' (next + 1) r) g acc
            = bsGo s node (List.range' (next + 1) r) g acc := by
          simp only [bsGo, hbfs]
        rw [this] at hres
        exact IH.1 hres j (by omega)
      · intro info hres
        have : bsGo s node (next :: List.range' (next + 1) r) g acc
            = bsGo s node (List.range' (next + 1) r) g acc := by
          simp only [bsGo, hbfs]
        rw [this] at hres
        obtain ⟨h2, ⟨i, hi, hb, he⟩, hnb⟩ := IH.2 info hres
        exact ⟨h2, ⟨i, by omega, hb, he⟩, fun j hj b hbj => hnb j (by omega) b hbj⟩
    · -- this feature produced a candidate
      have hpos' : flt zero info'.split_gain = true :=
        bfs_some_positive s node next info' hbfs
      have hnn' : isNaN info'.split_gain = false := (F.flt_not_nan hpos').2
      rcases hacc : flt g info'.split_gain with _ | _
      · -- the candidate does not beat the running best
        have hredu : bsGo s node (next :: List.range' (next + 1) r) g acc
            = bsGo s node (List.range' (next + 1) r) g acc := by
          simp only [bsGo, hbfs, hacc, Bool.false_eq_true, if_false]
        have IH := ih (next + 1) g acc hg
          (fun h0 => absurd hacc (by rw [(hnone h0).1, hpos']; simp))
          (fun a ha => by
            obtain ⟨h1, h2, ⟨i, hi, hb, he⟩, hnb⟩ := hsome a ha
            refine ⟨h1, h2, ⟨i, by omega, hb, he⟩, ?_⟩
            intro j hj b hbj
            rcases Nat.lt_or_ge j next with hlt | hge
            · exact hnb j hlt b hbj
            · have hj' : j = next := by omega
              rw [hj', hbfs] at hbj
              cases Option.some.inj hbj
              exact hacc)
        rw [hredu]
        constructor
        · intro hres j hj
          exact IH.1 hres j (by omega)
        · intro info hres
          obtain ⟨h2, ⟨i, hi, hb, he⟩, hnb⟩ := IH.2 info hres
          exact ⟨h2, ⟨i, by omega, hb, he⟩, fun j hj b hbj => hnb j (by omega) b hbj⟩
      · -- the candidate strictly beats the running best and is recorded
        have hredu : bsGo s node (next :: List.range' (next + 1) r) g acc
            = bsGo s node (List.range' (next + 1) r) info'.split_gain (some info') := by
          simp only [bsGo, hbfs, hacc, if_true]
        have hlt_earlier : ∀ j, j < next → ∀ b,
            best_feature_split s node j = some b →
            flt b.split_gain info'.split_gain = true := by
          intro j hj b hb
          rcases hAcase : acc with _ | ⟨a0⟩
          · rw [(hnone hAcase).2 j hj] at hb
            exact Option.noConfusion hb
          · have hnb := (hsome a0 hAcase).2.2.2 j hj b hb
            have hbpos := bfs_some_positive s node j b hb
            have hbnn := (F.flt_not_nan hbpos).2
            exact F.fle_flt_trans (F.fle_of_not_flt hg hbnn hnb) hacc
        have IH := ih (next + 1) info'.split_gain (some info') hnn'
          (fun h0 => Option.noConfusion h0)
          (fun a ha => by
            cases Option.some.inj ha
            refine ⟨rfl, hpos', ⟨next, by omega, hbfs, hlt_earlier⟩, ?_⟩
            intro j hj b hbj
            rcases Nat.lt_or_ge j next with hlt | hge
            · exact F.flt_asymm (hlt_earlier j hlt b hbj)
            · have hj' : j = next := by omega
              rw [hj', hbfs] at hbj
              cases Option.some.inj hbj
              exact F.flt_irrefl _)
        rw [hredu]
        constructor
        · intro hres
          exact absurd hres (by
            have := IH.1
            intro hcontra
            have hall := this hcontra
            have := hall next (by omega)
            rw [hbfs] at this
            exact Option.noConfusion this)
        · intro info hres
          obtain ⟨h2, ⟨i, hi, hb, he⟩, hnb⟩ := IH.2 info hres
          exact ⟨h2, ⟨i, by omega, hb, he⟩, fun j hj b hbj => hnb j (by omega) b hbj⟩

/-- Every candidate `best_split` returns was produced by some feature's
`best_feature_split`. -/
theorem best_split_some_from (s : MissingImputerSplitter) (node : SplittableNode)
    (info : SplitInfo) (h : best_split s node = some info) :
    ∃ i, i < node.histograms.length ∧ best_feature_split s node i = some info := by
  unfold best_split at h
  rw [List.range_eq_range'] at h
  obtain ⟨-, ⟨i, hi, hb, -⟩, -⟩ :=
    (bsGo_range_spec s node node.histograms.length 0 zero none (by decide)
      (fun _ => ⟨rfl, fun j hj => absurd hj (by omega)⟩)
      (fun a ha => Option.noConfusion ha)).2 info h
  exact ⟨i, by omega, hb⟩

/-- With `allow_missing_splits = false`, a split whose left side carries no
statistics at all is rejected outright. -/
theorem evaluate_split_zero_left_none (s : MissingImputerSplitter)
    (rg rh mg mh lb ub : F) (c : Option Constraint)
    (hallow : s.allow_missing_splits = false) :
    evaluate_split s zero zero rg rh mg mh lb ub c = none := by
  rw [evaluate_split_eq]
  have h1 : esRejectEmptySide s zero zero rg rh = true := by
    unfold esRejectEmptySide
    rw [hallow]
    simp [show feq zero zero = true from by decide]
  simp [h1]

/-- With `allow_missing_splits = false`, scanning a run of bins that all
carry zero statistics records no candidate: every boundary has an empty left
side. -/
theorem bfsGo_zero_bins_none (s : MissingImputerSplitter) (node : SplittableNode)
    (feature : Nat) (missing : Bin) (constraint : Option Constraint)
    (hallow : s.allow_missing_splits = false) :
    ∀ (L : List Bin) (i : Nat) (mgain : Option F),
      (∀ b ∈ L, b.grad_sum = zero ∧ b.hess_sum = zero) →
      (bfsGo s node feature missing constraint L i
        ⟨zero, zero, mgain, none⟩).split_info = none := by
  intro L
  induction L with
  | nil => intro i mgain hz; rfl
  | cons bin rest ih =>
    intro i mgain hz
    have hbin := hz bin (List.mem_cons_self ..)
    have hstep : bfsStep s node feature missing constraint bin i
        ⟨zero, zero, mgain, none⟩ = ⟨zero, zero, mgain, none⟩ := by
      unfold bfsStep
      dsimp only
      rw [evaluate_split_zero_left_none s _ _ _ _ _ _ _ hallow, hbin.1, hbin.2,
        show fadd zero zero = zero from by decide]
    have hrec : bfsGo s node feature missing constraint (bin :: rest) i
        ⟨zero, zero, mgain, none⟩
        = bfsGo s node feature missing constraint rest (i + 1)
          (bfsStep s node feature missing constraint bin i
            ⟨zero, zero, mgain, none⟩) := rfl
    rw [hrec, hstep]
    exact ih (i + 1) mgain (fun b hb => hz b (List.mem_cons_of_mem _ hb))

/-- If every boundary gain of the remaining scan is absent or non-positive,
the scan records no candidate. -/
theorem bfsGo_nonpositive_none (s : MissingImputerSplitter) (node : SplittableNode)
    (feature : Nat) (missing : Bin) (constraint : Option Constraint) :
    ∀ (L : List Bin) (i : Nat) (cg ch : F) (mgain : Option F),
      (∀ g ∈ boundaryGains s node missing constraint L cg ch,
        g.elim true (fun x => fle x zero) = true) →
      (bfsGo s node feature missing constraint L i
        ⟨cg, ch, mgain, none⟩).split_info = none := by
  intro L
  induction L with
  | nil => intro i cg ch mgain hz; rfl
  | cons bin rest ih =>
    intro i cg ch mgain hz
    have hbg : boundaryGains s node missing constraint (bin :: rest) cg ch
        = (match evaluate_split s cg ch (fsub (fsub node.grad_sum cg) missing.grad_sum)
            (fsub (fsub node.hess_sum ch) missing.hess_sum) missing.grad_sum
            missing.hess_sum node.lower_bound node.upper_bound constraint with
          | none => (none : Option F)
          | some (lni, rni, _) => some (cull_gain (fsub (fsub (fadd lni.gain rni.gain)
              node.gain_value) s.gamma) lni.weight rni.weight constraint))
          :: boundaryGains s node missing constraint rest
            (fadd cg bin.grad_sum) (fadd ch bin.hess_sum) := rfl
    rw [hbg] at hz
    have htail := fun g hg => hz g (List.mem_cons_of_mem _ hg)
    have hrec : bfsGo s node feature missing constraint (bin :: rest) i
        ⟨cg, ch, mgain, none⟩
        = bfsGo s node feature missing constraint rest (i + 1)
          (bfsStep s node feature missing constraint bin i ⟨cg, ch, mgain, none⟩) := rfl
    rw [hrec]
    rcases hev : evaluate_split s cg ch (fsub (fsub node.grad_sum cg) missing.grad_sum)
        (fsub (fsub node.hess_sum ch) missing.hess_sum) missing.grad_sum
        missing.hess_sum node.lower_bound node.upper_bound constraint with
      _ | ⟨⟨lni, rni, minfo⟩⟩
    · have hstep : bfsStep s node feature missing constraint bin i ⟨cg, ch, mgain, none⟩
          = ⟨fadd cg bin.grad_sum, fadd ch bin.hess_sum, mgain, none⟩ := by
        unfold bfsStep
        dsimp only
        rw [hev]
      rw [hstep]
      exact ih (i + 1) _ _ mgain htail
    · have hg0 := hz _ (List.mem_cons_self ..)
      rw [hev] at hg0
      have hsg : fle (cull_gain (fsub (fsub (fadd lni.gain rni.gain)
          node.gain_value) s.gamma) lni.weight rni.weight constraint) zero = true := by
        simpa using hg0
      have hstep : bfsStep s node feature missing constraint bin i ⟨cg, ch, mgain, none⟩
          = ⟨fadd cg bin.grad_sum, fadd ch bin.hess_sum, mgain, none⟩ := by
        unfold bfsStep
        dsimp only
        rw [hev]
        simp only [hsg, if_true]
      rw [hstep]
      exact ih (i + 1) _ _ mgain htail

/-! ## The claims -/

/-- C2: for all input statistics and hyperparameters, `evaluate_split`
returns `None` if and only if one of the following holds: (a)
`allow_missing_splits` is false and one side has both zero gradient sum and
zero hessian sum (`esRejectEmptySide`); (b) `allow_missing_splits` is false
and either side's pre-routing hessian sum is below `min_leaf_weight`
(`esRejectMinLeaf`); (c) after missing-value routing, either final side's
hessian sum is below `min_leaf_weight` (`esRejectFinal`) — this last check
applies regardless of `allow_missing_splits`.  In every other case it
returns `Some`. -/
theorem evaluate_split_none_iff (s : MissingImputerSplitter)
    (lg lh rg rh mg mh lb ub : F) (c : Option Constraint) :
    evaluate_split s lg lh rg rh mg mh lb ub c = none ↔
      (esRejectEmptySide s lg lh rg rh = true
        ∨ esRejectMinLeaf s lh rh = true
        ∨ esRejectFinal s lg lh rg rh mg mh lb ub c = true) := by
  rw [evaluate_split_eq]
  rcases h1 : esRejectEmptySide s lg lh rg rh with _ | _ <;>
    rcases h2 : esRejectMinLeaf s lh rh with _ | _ <;>
      rcases h3 : esRejectFinal s lg lh rg rh mg mh lb ub c with _ | _ <;>
        simp [h1, h2, h3]

/-- C3: when the missing bin carries nonzero mass, the routing direction with
the strictly larger incremental gain (routed gain minus that side's original
gain) receives the missing mass — its gradient and hessian sums are increased
by the missing sums and its gain and weight are replaced by the routed
values, while the other side keeps its original statistics; on a tie of
incremental gains missing is routed right; and the returned `MissingInfo`
tag matches the chosen direction. -/
theorem evaluate_split_missing_routing (s : MissingImputerSplitter)
    (lg lh rg rh mg mh lb ub : F) (c : Option Constraint)
    (l r : NodeInfo) (mi : MissingInfo)
    (hm : esMissingNonzero mg mh = true)
    (h : evaluate_split s lg lh rg rh mg mh lb ub c = some (l, r, mi)) :
    (flt (fsub (esMissingRightGain s rg rh mg mh) (esSideGain s rg rh lb ub c))
        (fsub (esMissingLeftGain s lg lh rg rh mg mh lb ub c)
          (esSideGain s lg lh lb ub c)) = true →
      mi = MissingInfo.Left ∧ l.grad = fadd lg mg ∧ l.cover = fadd lh mh ∧
        l.gain = esMissingLeftGain s lg lh rg rh mg mh lb ub c ∧
        l.weight = fmul (esMissingLeftWeight s lg lh mg mh lb ub c) s.learning_rate ∧
        r.grad = rg ∧ r.cover = rh ∧
        r.gain = esSideGain s rg rh lb ub c ∧
        r.weight = fmul (esSideWeight s rg rh lb ub c) s.learning_rate)
    ∧ (flt (fsub (esMissingLeftGain s lg lh rg rh mg mh lb ub c)
          (esSideGain s lg lh lb ub c))
        (fsub (esMissingRightGain s rg rh mg mh)
          (esSideGain s rg rh lb ub c)) = true →
      mi = MissingInfo.Right ∧ r.grad = fadd rg mg ∧ r.cover = fadd rh mh ∧
        r.gain = esMissingRightGain s rg rh mg mh ∧
        r.weight = fmul (esMissingRightWeight s rg rh mg mh) s.learning_rate ∧
        l.grad = lg ∧ l.cover = lh ∧
        l.gain = esSideGain s lg lh lb ub c ∧
        l.weight = fmul (esSideWeight s lg lh lb ub c) s.learning_rate)
    ∧ (feq (fsub (esMissingRightGain s rg rh mg mh) (esSideGain s rg rh lb ub c))
        (fsub (esMissingLeftGain s lg lh rg rh mg mh lb ub c)
          (esSideGain s lg lh lb ub c)) = true →
      mi = MissingInfo.Right ∧ r.grad = fadd rg mg ∧ r.cover = fadd rh mh ∧
        r.gain = esMissingRightGain s rg rh mg mh ∧
        r.weight = fmul (esMissingRightWeight s rg rh mg mh) s.learning_rate) := by
  rw [evaluate_split_eq] at h
  split_ifs at h
  all_goals try exact Option.noConfusion h
  simp only [Option.some.injEq, Prod.mk.injEq] at h
  obtain ⟨hl, hr, hmi⟩ := h
  subst hl; subst hr; subst hmi
  refine ⟨fun hdec => ?_, fun hdec => ?_, fun hdec => ?_⟩
  · have hGL : esGoesLeft s lg lh rg rh mg mh lb ub c = true := hdec
    simp [esMissing, esLeftNode, esRightNode, esFinalLeftGrad, esFinalRightGrad,
      esFinalLeftGain, esFinalRightGain, esFinalLeftWeight, esFinalRightWeight,
      esFinalLeftHessian, esFinalRightHessian, esRouteLeft, esRouteRight, hm, hGL]
  · have hGL : esGoesLeft s lg lh rg rh mg mh lb ub c = false := F.flt_asymm hdec
    simp [esMissing, esLeftNode, esRightNode, esFinalLeftGrad, esFinalRightGrad,
      esFinalLeftGain, esFinalRightGain, esFinalLeftWeight, esFinalRightWeight,
      esFinalLeftHessian, esFinalRightHessian, esRouteLeft, esRouteRight, hm, hGL]
  · have hGL : esGoesLeft s lg lh rg rh mg mh lb ub c = false := F.feq_flt_left hdec
    simp [esMissing, esLeftNode, esRightNode, esFinalLeftGrad, esFinalRightGrad,
      esFinalLeftGain, esFinalRightGain, esFinalLeftWeight, esFinalRightWeight,
      esFinalLeftHessian, esFinalRightHessian, esRouteLeft, esRouteRight, hm, hGL]

/-- C3 witness: on the concrete inputs `left = (-2, 1)`, `right = (2, 1)`,
`missing = (-1, 1)` (unconstrained, `l2 = 0`), missing is routed left and the
left child's gradient sum includes the missing mass. -/
theorem evaluate_split_missing_routing_witness :
    (⟨qi (-3), qn 36 16, qi 2, qn 3 2, (F.ninf, F.inf)⟩ : NodeInfo).grad
      = fadd (qi (-2)) (qi (-1)) :=
  ((evaluate_split_missing_routing s0 (qi (-2)) (qi 1) (qi 2) (qi 1) (qi (-1)) (qi 1)
      F.ninf F.inf none
      ⟨qi (-3), qn 36 16, qi 2, qn 3 2, (F.ninf, F.inf)⟩
      ⟨qi 2, qn 4 2, qi 1, qi (-2), (F.ninf, F.inf)⟩
      MissingInfo.Left (by decide) (by decide)).1 (by decide)).2.1

/-- C4: in the missing-direction decision, the missing→right weight is
computed with the unconstrained `weight` function (not clamped to the bound
interval), the missing→right gain used in the comparison and returned on a
right routing is the raw `gain_given_weight` value at that weight, and the
second `cull_gain` invocation is applied to the missing-left gain with the
missing-left weight and the original right weight — arguments identical to
the first invocation. -/
theorem evaluate_split_missing_right_raw (s : MissingImputerSplitter)
    (lg lh rg rh mg mh lb ub : F) (c : Option Constraint)
    (l r : NodeInfo) (mi : MissingInfo)
    (hm : esMissingNonzero mg mh = true)
    (h : evaluate_split s lg lh rg rh mg mh lb ub c = some (l, r, mi))
    (hdir : esGoesLeft s lg lh rg rh mg mh lb ub c = false) :
    r.weight = fmul (weight s.l2 (fadd rg mg) (fadd rh mh)) s.learning_rate
    ∧ r.gain = gain_given_weight s.l2 (fadd rg mg) (fadd rh mh)
        (weight s.l2 (fadd rg mg) (fadd rh mh))
    ∧ esMissingLeftGain s lg lh rg rh mg mh lb ub c
      = cull_gain (cull_gain (esMissingLeftGainRaw s lg lh mg mh lb ub c)
          (esMissingLeftWeight s lg lh mg mh lb ub c)
          (esSideWeight s rg rh lb ub c) c)
        (esMissingLeftWeight s lg lh mg mh lb ub c)
        (esSideWeight s rg rh lb ub c) c := by
  rw [evaluate_split_eq] at h
  split_ifs at h
  all_goals try exact Option.noConfusion h
  simp only [Option.some.injEq, Prod.mk.injEq] at h
  obtain ⟨-, hr, -⟩ := h
  subst hr
  refine ⟨?_, ?_, rfl⟩ <;>
    simp [esRightNode, esFinalRightGain, esFinalRightWeight, esRouteRight,
      esMissingRightGain, esMissingRightWeight, hm, hdir]

/-- C4 witness: on the concrete `n8` statistics (all mass in the missing
bin, `l2 = 1`), the right child's recorded weight equals the learning-rate
shrunk *unconstrained* weight of `right + missing`. -/
theorem evaluate_split_missing_right_raw_witness :
    (⟨qi (-4), qn 144 54, qi 2, qn 4 3, (F.ninf, F.inf)⟩ : NodeInfo).weight
      = fmul (weight s8.l2 (fadd (qi 0) (qi (-4))) (fadd (qi 0) (qi 2)))
          s8.learning_rate :=
  (evaluate_split_missing_right_raw s8 (qi 0) (qi 0) (qi 0) (qi 0) (qi (-4)) (qi 2)
    F.ninf F.inf none
    ⟨qi 0, qn 0 2, qi 0, qi 0, (F.ninf, F.inf)⟩
    ⟨qi (-4), qn 144 54, qi 2, qn 4 3, (F.ninf, F.inf)⟩
    MissingInfo.Right (by decide) (by decide) (by decide)).1

/-- C10: when the missing bin carries zero mass and `evaluate_split`
succeeds, it returns `MissingInfo.Right`, the left and right `NodeInfo`
gradient and cover fields equal the raw input left/right sums, each weight
equals the constrained weight of that side multiplied by `learning_rate`,
each gain equals `gain_given_weight` at that constrained weight, and both
bounds fields are `(-∞, +∞)`. -/
theorem evaluate_split_no_missing_mass (s : MissingImputerSplitter)
    (lg lh rg rh mg mh lb ub : F) (c : Option Constraint)
    (l r : NodeInfo) (mi : MissingInfo)
    (hmg : feq mg zero = true) (hmh : feq mh zero = true)
    (h : evaluate_split s lg lh rg rh mg mh lb ub c = some (l, r, mi)) :
    mi = MissingInfo.Right
      ∧ l.grad = lg ∧ l.cover = lh ∧ r.grad = rg ∧ r.cover = rh
      ∧ l.weight = fmul (constrained_weight s.l2 lg lh lb ub c) s.learning_rate
      ∧ r.weight = fmul (constrained_weight s.l2 rg rh lb ub c) s.learning_rate
      ∧ l.gain = gain_given_weight s.l2 lg lh (constrained_weight s.l2 lg lh lb ub c)
      ∧ r.gain = gain_given_weight s.l2 rg rh (constrained_weight s.l2 rg rh lb ub c)
      ∧ l.bounds = (F.ninf, F.inf) ∧ r.bounds = (F.ninf, F.inf) := by
  have hm : esMissingNonzero mg mh = false := by
    unfold esMissingNonzero
    rw [hmg, hmh]
    rfl
  rw [evaluate_split_eq] at h
  split_ifs at h
  all_goals try exact Option.noConfusion h
  simp only [Option.some.injEq, Prod.mk.injEq] at h
  obtain ⟨hl, hr, hmi⟩ := h
  subst hl; subst hr; subst hmi
  simp [esMissing, esLeftNode, esRightNode, esFinalLeftGrad, esFinalRightGrad,
    esFinalLeftGain, esFinalRightGain, esFinalLeftWeight, esFinalRightWeight,
    esFinalLeftHessian, esFinalRightHessian, esRouteLeft, esRouteRight,
    esSideGain, esSideWeight, hm]

/-- C10 witness: with zero missing mass on concrete inputs, the left child's
recorded weight is the learning-rate shrunk constrained weight of the left
sums. -/
theorem evaluate_split_no_missing_mass_witness :
    (⟨qi (-2), qn 4 2, qi 1, qi 2, (F.ninf, F.inf)⟩ : NodeInfo).weight
      = fmul (constrained_weight s0.l2 (qi (-2)) (qi 1) F.ninf F.inf none)
          s0.learning_rate :=
  (evaluate_split_no_missing_mass s0 (qi (-2)) (qi 1) (qi 2) (qi 1) (qi 0) (qi 0)
    F.ninf F.inf none
    ⟨qi (-2), qn 4 2, qi 1, qi 2, (F.ninf, F.inf)⟩
    ⟨qi 2, qn 4 2, qi 1, qi (-2), (F.ninf, F.inf)⟩
    MissingInfo.Right (by decide) (by decide) (by decide)).2.2.2.2.2.1

/-- C1: `best_split` iterates the feature columns in index order and keeps
the candidate with the globally maximal `split_gain` under strict `>`
comparison starting from a threshold of `0`: it returns `None` whenever no
feature yields a split with `split_gain > 0`; and any returned candidate has
`split_gain > 0`, comes from some feature, strictly beats every earlier
feature's candidate (so the first feature wins ties), and is strictly beaten
by no feature's candidate. -/
theorem best_split_global_max (s : MissingImputerSplitter) (node : SplittableNode) :
    ((∀ i, i < node.histograms.length → ∀ info,
        best_feature_split s node i = some info → flt zero info.split_gain = false) →
      best_split s node = none)
    ∧ (∀ info, best_split s node = some info →
        flt zero info.split_gain = true ∧
        (∃ i, i < node.histograms.length ∧ best_feature_split s node i = some info ∧
          ∀ j, j < i → ∀ b, best_feature_split s node j = some b →
            flt b.split_gain info.split_gain = true) ∧
        (∀ j, j < node.histograms.length → ∀ b,
          best_feature_split s node j = some b →
          flt info.split_gain b.split_gain = false)) := by
  have hspec := bsGo_range_spec s node node.histograms.length 0 zero none (by decide)
    (fun _ => ⟨rfl, fun j hj => absurd hj (by omega)⟩)
    (fun a ha => Option.noConfusion ha)
  constructor
  · intro hnopos
    rcases hres : best_split s node with _ | ⟨info⟩
    · rfl
    · exfalso
      unfold best_split at hres
      rw [List.range_eq_range'] at hres
      obtain ⟨hpos, ⟨i, hi, hb, -⟩, -⟩ := hspec.2 info hres
      have hz := hnopos i (by omega) info hb
      rw [hz] at hpos
      exact Bool.noConfusion hpos
  · intro info hres
    unfold best_split at hres
    rw [List.range_eq_range'] at hres
    obtain ⟨hpos, ⟨i, hi, hb, he⟩, hnb⟩ := hspec.2 info hres
    exact ⟨hpos, ⟨i, by omega, hb, he⟩, fun j hj b hbj => hnb j (by omega) b hbj⟩

/-- C1 witness: on `nE` (all features reject) `best_split` returns `None`,
and the candidate returned on `n0` has positive gain. -/
theorem best_split_global_max_witness :
    best_split sE nE = none ∧ flt zero info0.split_gain = true :=
  ⟨(best_split_global_max sE nE).1 (fun i hi info hinfo => by
      have hi1 : i < 1 := hi
      have hi0 : i = 0 := by omega
      rw [hi0, show best_feature_split sE nE 0 = none from by decide] at hinfo
      exact Option.noConfusion hinfo),
    ((best_split_global_max s0 n0).2 info0 (by decide)).1⟩

/-- C5: for every `SplitInfo` accepted by `best_feature_split` under a
constraint, a `Positive` (non-decreasing) constraint guarantees the left
child's weight is ≤ the right child's weight, and a `Negative`
(non-increasing) constraint guarantees the left child's weight is ≥ the
right child's weight: candidates violating the required order have their
gain culled to `0` and are never recorded. -/
theorem best_feature_split_monotone (s : MissingImputerSplitter)
    (node : SplittableNode) (feature : Nat) (info : SplitInfo)
    (h : best_feature_split s node feature = some info) :
    (s.constraints_map feature = some Constraint.Positive →
      fle info.left_node.weight info.right_node.weight = true)
    ∧ (s.constraints_map feature = some Constraint.Negative →
      fle info.right_node.weight info.left_node.weight = true) := by
  refine best_feature_split_inv s node feature
    (fun a => (s.constraints_map feature = some Constraint.Positive →
        fle a.left_node.weight a.right_node.weight = true)
      ∧ (s.constraints_map feature = some Constraint.Negative →
        fle a.right_node.weight a.left_node.weight = true)) ?_ info h
  intro missing cg ch bin i lni rni minfo hev hpos
  constructor
  · intro hc
    rw [hc] at hpos
    exact cull_gain_positive_order hpos
  · intro hc
    rw [hc] at hpos
    exact cull_gain_negative_order hpos

/-- C5 witness: on `n5` under the non-decreasing constraint, the returned
split's left weight is ≤ its right weight. -/
theorem best_feature_split_monotone_witness :
    fle info5.left_node.weight info5.right_node.weight = true :=
  (best_feature_split_monotone s5 n5 0 info5 (by decide)).1 (by decide)

/-- C6: `best_feature_split` returns `None` when no bin of the feature's
column produced a positive (culled) split gain, and any `SplitInfo` it does
return has `split_gain > 0`; a NaN gain is culled to `0` by `cull_gain` and
hence rejected with the other non-positive candidates. -/
theorem best_feature_split_positive_gain (s : MissingImputerSplitter)
    (node : SplittableNode) (feature : Nat) :
    (∀ info, best_feature_split s node feature = some info →
      flt zero info.split_gain = true)
    ∧ (∀ missing rest, getCol node.histograms feature = missing :: rest →
        (∀ g ∈ boundaryGains s node missing (s.constraints_map feature) rest zero zero,
          g.elim true (fun x => fle x zero) = true) →
        best_feature_split s node feature = none)
    ∧ (∀ (g lw rw : F) (c : Option Constraint), isNaN g = true →
        cull_gain g lw rw c = zero) := by
  refine ⟨fun info h => bfs_some_positive s node feature info h, ?_,
    fun g lw rw c hg => cull_gain_nan g lw rw c hg⟩
  intro missing rest hcol hall
  unfold best_feature_split
  rw [hcol]
  exact bfsGo_nonpositive_none s node feature missing (s.constraints_map feature)
    rest 0 zero zero none hall

/-- C6 witness: the candidate found on `n0` has positive gain; on `n6` the
only boundary gain is `0` (culled from a NaN) and no split is returned; and
`cull_gain` maps a NaN gain to `0`. -/
theorem best_feature_split_positive_gain_witness :
    flt zero info0.split_gain = true
      ∧ best_feature_split s0 n6 0 = none
      ∧ cull_gain F.nan (qi 1) (qi 2) none = zero :=
  ⟨(best_feature_split_positive_gain s0 n0 0).1 info0 (by decide),
    (best_feature_split_positive_gain s0 n6 0).2.1 ⟨qi 0, qi 0, qi 0⟩
      [⟨qi 0, qi 1, qi 1⟩] rfl (by decide),
    (best_feature_split_positive_gain s0 n6 0).2.2 F.nan (qi 1) (qi 2) none rfl⟩

/-- C7: the children's weight bound intervals recorded with an accepted
candidate are: under no constraint or `Unconstrained`, both children receive
the parent interval `[node.lower_bound, node.upper_bound]` unchanged; under
`Negative` (non-increasing), left gets `[mid, upper]` and right gets
`[lower, mid]`; under `Positive` (non-decreasing), left gets `[lower, mid]`
and right gets `[mid, upper]`, where `mid = (left_weight + right_weight) / 2`
is computed from the two recorded child weights. -/
theorem best_feature_split_child_bounds (s : MissingImputerSplitter)
    (node : SplittableNode) (feature : Nat) (info : SplitInfo)
    (h : best_feature_split s node feature = some info) :
    (match s.constraints_map feature with
      | none | some Constraint.Unconstrained =>
        info.left_node.bounds = (node.lower_bound, node.upper_bound)
          ∧ info.right_node.bounds = (node.lower_bound, node.upper_bound)
      | some Constraint.Negative =>
        info.left_node.bounds
            = (fdiv (fadd info.left_node.weight info.right_node.weight) two,
              node.upper_bound)
          ∧ info.right_node.bounds
            = (node.lower_bound,
              fdiv (fadd info.left_node.weight info.right_node.weight) two)
      | some Constraint.Positive =>
        info.left_node.bounds
            = (node.lower_bound,
              fdiv (fadd info.left_node.weight info.right_node.weight) two)
          ∧ info.right_node.bounds
            = (fdiv (fadd info.left_node.weight info.right_node.weight) two,
              node.upper_bound)) := by
  refine best_feature_split_inv s node feature
    (fun a => match s.constraints_map feature with
      | none | some Constraint.Unconstrained =>
        a.left_node.bounds = (node.lower_bound, node.upper_bound)
          ∧ a.right_node.bounds = (node.lower_bound, node.upper_bound)
      | some Constraint.Negative =>
        a.left_node.bounds
            = (fdiv (fadd a.left_node.weight a.right_node.weight) two,
              node.upper_bound)
          ∧ a.right_node.bounds
            = (node.lower_bound,
              fdiv (fadd a.left_node.weight a.right_node.weight) two)
      | some Constraint.Positive =>
        a.left_node.bounds
            = (node.lower_bound,
              fdiv (fadd a.left_node.weight a.right_node.weight) two)
          ∧ a.right_node.bounds
            = (fdiv (fadd a.left_node.weight a.right_node.weight) two,
              node.upper_bound)) ?_ info h
  intro missing cg ch bin i lni rni minfo hev hpos
  rcases hc : s.constraints_map feature with _ | c0
  · exact ⟨rfl, rfl⟩
  · cases c0
    · exact ⟨rfl, rfl⟩
    · exact ⟨rfl, rfl⟩
    · exact ⟨rfl, rfl⟩

/-- C7 witness: on `n5` under the non-decreasing constraint, the recorded
bounds are `[lower, mid]` for the left child and `[mid, upper]` for the
right child. -/
theorem best_feature_split_child_bounds_witness :
    info5.left_node.bounds
        = (n5.lower_bound,
          fdiv (fadd info5.left_node.weight info5.right_node.weight) two)
      ∧ info5.right_node.bounds
        = (fdiv (fadd info5.left_node.weight info5.right_node.weight) two,
          n5.upper_bound) :=
  best_feature_split_child_bounds s5 n5 0 info5 (by decide)

/-- C8 counterexample: a histogram column whose entire gradient and hessian
mass `(-4, 2)` lies in the missing bin, with the only other bin carrying
zero gradient and hessian sums, on which `best_feature_split` nevertheless
returns a split (of gain `2/3`): with `allow_missing_splits = true`, `l2 = 1`
and a node `gain_value` of `2` (below the unconstrained leaf gain `8/3` of
the node totals), routing all missing mass right yields a positive split
gain.  This refutes the claim that such a column yields `None` for every
hyperparameter configuration. -/
theorem best_feature_split_missing_only_counterexample :
    (getCol n8.histograms 0).head? = some ⟨n8.grad_sum, n8.hess_sum, qi 0⟩
      ∧ (∀ b ∈ (getCol n8.histograms 0).tail,
          b.grad_sum = zero ∧ b.hess_sum = zero)
      ∧ s8.allow_missing_splits = true
      ∧ best_feature_split s8 n8 0 = some info8 := by decide

/-- C8 (amended): for a histogram column whose entire gradient and hessian
mass lies in the missing bin (index 0), with every other bin carrying zero
gradient and hessian sums, `best_feature_split` returns `None` for that
feature, for every hyperparameter configuration and constraint, provided
`allow_missing_splits` is false. -/
theorem best_feature_split_missing_only_none (s : MissingImputerSplitter)
    (node : SplittableNode) (feature : Nat) (missing : Bin) (rest : List Bin)
    (hallow : s.allow_missing_splits = false)
    (hcol : getCol node.histograms feature = missing :: rest)
    (hzero : ∀ b ∈ rest, b.grad_sum = zero ∧ b.hess_sum = zero)
    (hg : node.grad_sum = missing.grad_sum)
    (hh : node.hess_sum = missing.hess_sum) :
    best_feature_split s node feature = none := by
  unfold best_feature_split
  rw [hcol]
  exact bfsGo_zero_bins_none s node feature missing (s.constraints_map feature)
    hallow rest 0 none hzero

/-- C8 (amended) witness: on `nE` (all mass in the missing bin) with
`allow_missing_splits = false`, no split is returned. -/
theorem best_feature_split_missing_only_none_witness :
    best_feature_split sE nE 0 = none :=
  best_feature_split_missing_only_none sE nE 0 ⟨qi 1, qi 1, qi 0⟩
    [⟨qi 0, qi 0, qi 1⟩] rfl rfl (by decide) rfl rfl

/-- C9: every `MissingInfo` value produced by `evaluate_split` — and hence
carried in any `SplitInfo` returned by `best_feature_split` or `best_split`
— is either `Left` or `Right`; the `Branch` variant is never constructed by
the algorithm. -/
theorem missing_info_left_or_right :
    (∀ (s : MissingImputerSplitter) (lg lh rg rh mg mh lb ub : F)
      (c : Option Constraint) (l r : NodeInfo) (mi : MissingInfo),
      evaluate_split s lg lh rg rh mg mh lb ub c = some (l, r, mi) →
      mi = MissingInfo.Left ∨ mi = MissingInfo.Right)
    ∧ (∀ (s : MissingImputerSplitter) (node : SplittableNode) (feature : Nat)
        (info : SplitInfo), best_feature_split s node feature = some info →
        info.missing_node = MissingInfo.Left
          ∨ info.missing_node = MissingInfo.Right)
    ∧ (∀ (s : MissingImputerSplitter) (node : SplittableNode) (info : SplitInfo),
        best_split s node = some info →
        info.missing_node = MissingInfo.Left
          ∨ info.missing_node = MissingInfo.Right) := by
  refine ⟨fun s lg lh rg rh mg mh lb ub c l r mi h =>
      evaluate_split_tag s lg lh rg rh mg mh lb ub c l r mi h,
    fun s node feature info h => bfs_missing_tag s node feature info h,
    fun s node info h => ?_⟩
  obtain ⟨i, -, hb⟩ := best_split_some_from s node info h
  exact bfs_missing_tag s node i info hb

/-- C9 witness: the tag of the split `best_split` finds on `n0` is `Left` or
`Right`. -/
theorem missing_info_left_or_right_witness :
    info0.missing_node = MissingInfo.Left
      ∨ info0.missing_node = MissingInfo.Right :=
  missing_info_left_or_right.2.2 s0 n0 info0 (by decide)

end Forust
